import Mathlib

/-!
Verification of the `deltas` instruction model, codec and diff pipeline.

Bytes are modelled as natural numbers (a `u8` value is a `Nat` that the Rust
type system keeps below 256; where the source casts with `as u8` we reduce
modulo 256 explicitly).  Fallible Rust functions returning `Result` are
modelled with `Except`; the byte cursor (`Peekable<Iter<u8>>`) is modelled as
the list of not-yet-consumed bytes, and a decoder returns the decoded value
together with the remaining list.
-/

namespace Deltas

/-- Error enum surfaced by the library (`InstructionError`). -/
inductive InstructionError where
  | contentOverflow
  | invalidSign
  | missingSign
  | missingLength
  | invalidLength
  | missingContent
  | sourceUnderrun
  deriving DecidableEq, Repr

/-- Decidable equality for `Except` results, used to evaluate concrete
decoder runs. -/
def exceptDecEq {e a : Type} [DecidableEq e] [DecidableEq a] :
    DecidableEq (Except e a)
  | .ok x, .ok y =>
    if h : x = y then .isTrue (by rw [h]) else .isFalse (fun hc => h (Except.ok.inj hc))
  | .error x, .error y =>
    if h : x = y then .isTrue (by rw [h]) else .isFalse (fun hc => h (Except.error.inj hc))
  | .ok _, .error _ => .isFalse (fun hc => Except.noConfusion hc)
  | .error _, .ok _ => .isFalse (fun hc => Except.noConfusion hc)

instance {e a : Type} [DecidableEq e] [DecidableEq a] : DecidableEq (Except e a) :=
  exceptDecEq

/-- `MAX_INSTRUCTION_LENGTH : u8 = u8::MAX` from `instructions.rs`. -/
def MAX_INSTRUCTION_LENGTH : Nat := 255

/-- `MIN_INSTRUCTION_LENGTH : u8 = u8::MIN` from `instructions.rs`. -/
def MIN_INSTRUCTION_LENGTH : Nat := 0

/-- `REMOVE_INSTRUCTION_SIGN = b'-'`. -/
def REMOVE_INSTRUCTION_SIGN : Nat := 45

/-- `ADD_INSTRUCTION_SIGN = b'+'`. -/
def ADD_INSTRUCTION_SIGN : Nat := 43

/-- `COPY_INSTRUCTION_SIGN = b'|'`. -/
def COPY_INSTRUCTION_SIGN : Nat := 124

/-- The `Instruction` enum of `instructions.rs`: `Remove { length: u8 }`,
`Add { content: Vec<u8> }`, `Copy { content: Vec<u8> }`. -/
inductive Instruction where
  | remove (length : Nat)
  | add (content : List Nat)
  | copy (content : List Nat)
  deriving DecidableEq, Repr

namespace Instruction

/-- `Instruction::len`: the stored length for Remove, `content.len() as u8`
(i.e. the length reduced modulo 256) for Add/Copy. -/
def len : Instruction → Nat
  | .remove length => length
  | .add content => content.length % 256
  | .copy content => content.length % 256

/-- `Instruction::is_empty`: `len() == MIN_INSTRUCTION_LENGTH`. -/
def isEmpty (i : Instruction) : Bool := i.len = MIN_INSTRUCTION_LENGTH

/-- `Instruction::is_full`: `len() == MAX_INSTRUCTION_LENGTH`. -/
def isFull (i : Instruction) : Bool := i.len = MAX_INSTRUCTION_LENGTH

/-- `Instruction::push`: returns the (possibly) mutated instruction together
with the `Result<()>`; when full, the error is returned and the instruction
is left unchanged, otherwise Remove increments its counter (ignoring the
byte) and Add/Copy append the byte to their content. -/
def push (i : Instruction) (byte : Nat) : Instruction × Except InstructionError Unit :=
  if i.isFull then (i, .error .contentOverflow)
  else
    match i with
    | .remove length => (.remove (length + 1), .ok ())
    | .add content => (.add (content ++ [byte]), .ok ())
    | .copy content => (.copy (content ++ [byte]), .ok ())

/-- `Instruction::sign`. -/
def sign : Instruction → Nat
  | .remove _ => REMOVE_INSTRUCTION_SIGN
  | .add _ => ADD_INSTRUCTION_SIGN
  | .copy _ => COPY_INSTRUCTION_SIGN

/-- `Instruction::to_bytes`: sign byte, then `length` (for Remove the stored
`u8`, for Add/Copy `content.len() as u8`), then the content for Add/Copy. -/
def toBytes : Instruction → List Nat
  | .remove length => [REMOVE_INSTRUCTION_SIGN, length]
  | .add content => ADD_INSTRUCTION_SIGN :: (content.length % 256) :: content
  | .copy content => COPY_INSTRUCTION_SIGN :: (content.length % 256) :: content

/-- `Instruction::try_from_bytes` over the cursor; returns the decoded
instruction and the bytes left unconsumed.  `bytes.take(length)` consumes
`min length remaining` items, i.e. `List.take` / `List.drop`. -/
def tryFromBytes : List Nat → Except InstructionError (Instruction × List Nat)
  | [] => .error .missingSign
  | b :: rest =>
    if b = REMOVE_INSTRUCTION_SIGN then
      match rest with
      | [] => .error .missingLength
      | length :: rest' => .ok (.remove length, rest')
    else if b = ADD_INSTRUCTION_SIGN then
      match rest with
      | [] => .error .missingLength
      | length :: rest' =>
        let content := rest'.take length
        if content.length ≠ length then .error .missingContent
        else .ok (.add content, rest'.drop length)
    else if b = COPY_INSTRUCTION_SIGN then
      match rest with
      | [] => .error .missingLength
      | length :: rest' =>
        let content := rest'.take length
        if content.length ≠ length then .error .missingContent
        else .ok (.copy content, rest'.drop length)
    else .error .invalidSign

/-- Capacity well-formedness enforced by the Rust types: a `u8` length field
and, for Add/Copy, a content that a single instruction may legally hold. -/
def wf : Instruction → Prop
  | .remove length => length ≤ MAX_INSTRUCTION_LENGTH
  | .add content => content.length ≤ MAX_INSTRUCTION_LENGTH
  | .copy content => content.length ≤ MAX_INSTRUCTION_LENGTH

end Instruction

/-!
The width-parametric `RemoveInstruction` of `remove_instruction.rs`.  Its
length type `InstructionLength` is an unsigned integer of byte width `W`
(`std::mem::size_of::<InstructionLength>()`), held here as a `Nat` below
`256 ^ W`; `InstructionLength::MAX = 256 ^ W - 1` and `MIN = 0`.  The
functions below take `W` (and the capacity `M` where the source uses
`InstructionLength::MAX`) as explicit parameters.
-/

/-- `to_be_bytes` of a `W`-byte unsigned integer: big-endian digits base 256,
exactly `W` bytes. -/
def toBeBytes : Nat → Nat → List Nat
  | 0, _ => []
  | w + 1, n => toBeBytes w (n / 256) ++ [n % 256]

/-- `from_be_bytes`: big-endian reconstruction. -/
def fromBeBytes (bytes : List Nat) : Nat :=
  bytes.foldl (fun acc b => acc * 256 + b) 0

namespace RemoveInstruction

/-- `RemoveInstruction::byte_length`: `size_of::<InstructionLength>() + 1`. -/
def byteLength (W : Nat) : Nat := W + 1

/-- `RemoveInstruction::to_bytes`: the sign byte `b'-'` followed by
`self.len().to_be_bytes()`; no content bytes. -/
def toBytes (W length : Nat) : List Nat :=
  REMOVE_INSTRUCTION_SIGN :: toBeBytes W length

/-- `RemoveInstruction::try_from_bytes`: read the sign byte (`MissingSign` /
`InvalidSign`), fail with `MissingLength` when no byte at all follows, then
`take` up to `W` bytes and convert the slice to a `W`-byte array —
`try_into` fails (`InvalidLength`) exactly when fewer than `W` bytes were
collected. -/
def tryFromBytes (W : Nat) : List Nat → Except InstructionError (Nat × List Nat)
  | [] => .error .missingSign
  | b :: rest =>
    if b = REMOVE_INSTRUCTION_SIGN then
      if rest.isEmpty then .error .missingLength
      else
        let lengthBytes := rest.take W
        if lengthBytes.length = W then .ok (fromBeBytes lengthBytes, rest.drop W)
        else .error .invalidLength
    else .error .invalidSign

/-- `RemoveInstruction::push` (trait `InstructionContent`): fails with
`ContentOverflow` when `is_full` (`len() == M` for capacity `M`), otherwise
increments the counter, ignoring the pushed item. -/
def push (M length : Nat) : Except InstructionError Nat :=
  if length = M then .error .contentOverflow else .ok (length + 1)

/-- `RemoveInstruction::fill`: while the LCS cursor has a next item, the
source cursor has a next item, the two peeked items differ and the
instruction is not full, consume one source item and `push` it (the
`.unwrap()` on `push` is modelled by propagating its error).  The LCS and
target cursors are never advanced; the result is the final counter together
with the three cursors. -/
def fill (M : Nat) (length : Nat) (lcs source target : List Nat) :
    Except InstructionError (Nat × List Nat × List Nat × List Nat) :=
  match source with
  | [] => .ok (length, lcs, [], target)
  | s :: rest =>
    match lcs.head? with
    | none => .ok (length, lcs, s :: rest, target)
    | some l =>
      if l = s ∨ length = M then .ok (length, lcs, s :: rest, target)
      else
        match push M length with
        | .ok length' => fill M length' lcs rest target
        | .error e => .error e

end RemoveInstruction

/-!
The LCS Engine, Diff Engine and Applier are part of this repository but not
under `src/`; they are modelled from the spec (§4.1, §4.3, §4.5).
-/

/-- Modelled from the spec: the LCS Engine (§4.1) is not in `src/`.  Returns
a maximal-length common subsequence of the two inputs; the spec leaves the
tie-break open and allows any algorithm meeting the subsequence contract.
Structural recursion over a fuel that dominates the sum of lengths. -/
def lcsAux : Nat → List Nat → List Nat → List Nat
  | 0, _, _ => []
  | _, [], _ => []
  | _, _, [] => []
  | fuel + 1, x :: xs, y :: ys =>
    if x = y then x :: lcsAux fuel xs ys
    else if (lcsAux fuel xs (y :: ys)).length ≤ (lcsAux fuel (x :: xs) ys).length then
      lcsAux fuel (x :: xs) ys
    else lcsAux fuel xs (y :: ys)

/-- Modelled from the spec: `lcs` entry point with sufficient fuel. -/
def lcs (source target : List Nat) : List Nat :=
  lcsAux (source.length + target.length) source target

/-- Modelled from the spec: the fill condition of `Remove.fill` / `Add.fill`
(§4.2) as used by the Diff Engine — absorb the next item while it is not the
peeked LCS item.  §4.3's termination guarantee and §8's concrete scenarios
(e.g. `diff("AAA", "")` = `[Remove{3}]`) require that an exhausted LCS
cursor counts as a mismatch, so trailing source/target bytes are absorbed. -/
def mismatchesHead (lcsRest : List Nat) (item : Nat) : Bool :=
  decide (lcsRest.head? ≠ some item)

/-- Modelled from the spec: `Copy.fill` (§4.2) — the run of items consumed
while the LCS, source and target cursors all have a next item and the three
peeked items are equal. -/
def copyTaken : List Nat → List Nat → List Nat → List Nat
  | l :: ls, s :: ss, t :: ts =>
    if l = s ∧ s = t then l :: copyTaken ls ss ts else []
  | _, _, _ => []

/-- Modelled from the spec: capacity splitting (§4.3) — a run longer than
`MAX = 255` is split into consecutive same-variant instructions of length at
most 255 whose lengths sum to the run length; an empty run yields no
instruction. -/
def splitCountsAux : Nat → Nat → List Nat
  | 0, _ => []
  | fuel + 1, n => if n = 0 then [] else min n 255 :: splitCountsAux fuel (n - 255)

/-- Modelled from the spec: a Remove run length split into counts of at most
255 summing to it. -/
def splitCounts (n : Nat) : List Nat := splitCountsAux n n

/-- Fueled worker for `splitChunks`. -/
def splitChunksAux : Nat → List Nat → List (List Nat)
  | 0, _ => []
  | fuel + 1, c => if c = [] then [] else c.take 255 :: splitChunksAux fuel (c.drop 255)

/-- Modelled from the spec: content runs split into chunks of at most 255. -/
def splitChunks (c : List Nat) : List (List Nat) := splitChunksAux c.length c

/-- Modelled from the spec: a Remove run of `n` source bytes as sealed
instructions. -/
def removeChunks (n : Nat) : List Instruction :=
  (splitCounts n).map .remove

/-- Modelled from the spec: an Add run as sealed instructions. -/
def addChunks (c : List Nat) : List Instruction :=
  (splitChunks c).map .add

/-- Modelled from the spec: a Copy run as sealed instructions. -/
def copyChunks (c : List Nat) : List Instruction :=
  (splitChunks c).map .copy

/-- Modelled from the spec: one pass of the Diff Engine loop (§4.3), driven
by fuel (each non-final iteration consumes at least one source or target
item, see the proofs below).  Per iteration: a Remove run off the source
cursor, an Add run off the target cursor, then a Copy run advancing all
three cursors; empty runs contribute no instruction. -/
def diffLoop : Nat → List Nat → List Nat → List Nat → List Instruction
  | 0, _, _, _ => []
  | fuel + 1, lcsRest, source, target =>
    if lcsRest = [] ∧ source = [] ∧ target = [] then []
    else
      let r := source.takeWhile (mismatchesHead lcsRest)
      let source1 := source.dropWhile (mismatchesHead lcsRest)
      let a := target.takeWhile (mismatchesHead lcsRest)
      let target1 := target.dropWhile (mismatchesHead lcsRest)
      let c := copyTaken lcsRest source1 target1
      removeChunks r.length ++ addChunks a ++ copyChunks c ++
        diffLoop fuel (lcsRest.drop c.length) (source1.drop c.length)
          (target1.drop c.length)

/-- Modelled from the spec: `diff(source, target)` (§4.3, §6). -/
def diff (source target : List Nat) : List Instruction :=
  diffLoop (source.length + target.length + 1) (lcs source target) source target

/-- Modelled from the spec: the Applier (§4.5) — `Remove{n}` skips `n`
source bytes (`SourceUnderrun` if fewer remain), `Add{c}` appends `c` to the
output, `Copy{c}` appends `c` and skips `content.len()` source bytes.
Leftover source after the last instruction is not an error. -/
def applyStream : List Nat → List Instruction → Except InstructionError (List Nat)
  | _, [] => .ok []
  | source, .remove n :: rest =>
    if n ≤ source.length then applyStream (source.drop n) rest
    else .error .sourceUnderrun
  | source, .add c :: rest => (applyStream source rest).map (fun out => c ++ out)
  | source, .copy c :: rest =>
    if c.length ≤ source.length then
      (applyStream (source.drop c.length) rest).map (fun out => c ++ out)
    else .error .sourceUnderrun

/-!
Theorems about the instruction model and codec.
-/

/-- C3: decoding a single instruction fails with exactly the specified error
for each malformed shape: empty input yields MissingSign; a first byte that
is not one of the three sign bytes yields InvalidSign; a recognized sign
byte with no following length byte yields MissingLength; an Add or Copy
sign with length field L but fewer than L content bytes yields
MissingContent; decoding never succeeds on any of these inputs. -/
theorem c3_decode_error_shapes :
    Instruction.tryFromBytes [] = .error .missingSign
    ∧ (∀ b s, b ≠ REMOVE_INSTRUCTION_SIGN → b ≠ ADD_INSTRUCTION_SIGN →
        b ≠ COPY_INSTRUCTION_SIGN →
        Instruction.tryFromBytes (b :: s) = .error .invalidSign)
    ∧ (∀ b, b = REMOVE_INSTRUCTION_SIGN ∨ b = ADD_INSTRUCTION_SIGN ∨
        b = COPY_INSTRUCTION_SIGN →
        Instruction.tryFromBytes [b] = .error .missingLength)
    ∧ (∀ L c, List.length c < L →
        Instruction.tryFromBytes (ADD_INSTRUCTION_SIGN :: L :: c) = .error .missingContent
        ∧ Instruction.tryFromBytes (COPY_INSTRUCTION_SIGN :: L :: c)
            = .error .missingContent) := by
  refine ⟨rfl, ?_, ?_, ?_⟩
  · intro b s h1 h2 h3
    simp [Instruction.tryFromBytes, h1, h2, h3]
  · rintro b (rfl | rfl | rfl) <;>
      simp [Instruction.tryFromBytes, REMOVE_INSTRUCTION_SIGN, ADD_INSTRUCTION_SIGN,
        COPY_INSTRUCTION_SIGN]
  · intro L c h
    have htake : (c.take L).length = c.length := by
      simp [List.length_take]
      omega
    constructor <;>
      simp [Instruction.tryFromBytes, REMOVE_INSTRUCTION_SIGN, ADD_INSTRUCTION_SIGN,
        COPY_INSTRUCTION_SIGN, htake] <;>
      omega

/-- C3 witness: the error shapes at concrete inputs. -/
theorem c3_decode_error_shapes_witness :
    Instruction.tryFromBytes [88] = .error .invalidSign
    ∧ Instruction.tryFromBytes [43] = .error .missingLength
    ∧ Instruction.tryFromBytes [43, 5, 1, 2, 3] = .error .missingContent :=
  ⟨c3_decode_error_shapes.2.1 88 [] (by decide) (by decide) (by decide),
   c3_decode_error_shapes.2.2.1 43 (Or.inr (Or.inl rfl)),
   (c3_decode_error_shapes.2.2.2 5 [1, 2, 3] (by decide)).1⟩

/-- C10: in the one-byte-width codec, `Instruction::try_from_bytes` is total
and returns either Ok or one of MissingSign, InvalidSign, MissingLength,
MissingContent; InvalidLength is never returned. -/
theorem c10_decode_total_error_range (bs : List Nat) :
    ((∃ v, Instruction.tryFromBytes bs = .ok v)
      ∨ Instruction.tryFromBytes bs = .error .missingSign
      ∨ Instruction.tryFromBytes bs = .error .invalidSign
      ∨ Instruction.tryFromBytes bs = .error .missingLength
      ∨ Instruction.tryFromBytes bs = .error .missingContent)
    ∧ Instruction.tryFromBytes bs ≠ .error .invalidLength := by
  have h : (∃ v, Instruction.tryFromBytes bs = .ok v)
      ∨ Instruction.tryFromBytes bs = .error .missingSign
      ∨ Instruction.tryFromBytes bs = .error .invalidSign
      ∨ Instruction.tryFromBytes bs = .error .missingLength
      ∨ Instruction.tryFromBytes bs = .error .missingContent := by
    cases bs with
    | nil => exact Or.inr (Or.inl rfl)
    | cons b rest =>
      by_cases h1 : b = REMOVE_INSTRUCTION_SIGN
      · subst h1
        cases rest with
        | nil =>
          refine Or.inr (Or.inr (Or.inr (Or.inl ?_)))
          simp [Instruction.tryFromBytes]
        | cons L r =>
          exact Or.inl ⟨(.remove L, r), by simp [Instruction.tryFromBytes]⟩
      · by_cases h2 : b = ADD_INSTRUCTION_SIGN
        · subst h2
          cases rest with
          | nil =>
            refine Or.inr (Or.inr (Or.inr (Or.inl ?_)))
            simp [Instruction.tryFromBytes, REMOVE_INSTRUCTION_SIGN, ADD_INSTRUCTION_SIGN]
          | cons L r =>
            by_cases h3 : (r.take L).length = L
            · refine Or.inl ⟨(.add (r.take L), r.drop L), ?_⟩
              simp [Instruction.tryFromBytes, REMOVE_INSTRUCTION_SIGN,
                ADD_INSTRUCTION_SIGN, h3]
            · refine Or.inr (Or.inr (Or.inr (Or.inr ?_)))
              have hlt : r.length < L := by
                simp [List.length_take] at h3
                omega
              simp [Instruction.tryFromBytes, REMOVE_INSTRUCTION_SIGN,
                ADD_INSTRUCTION_SIGN, List.length_take, hlt]
        · by_cases h4 : b = COPY_INSTRUCTION_SIGN
          · subst h4
            cases rest with
            | nil =>
              refine Or.inr (Or.inr (Or.inr (Or.inl ?_)))
              simp [Instruction.tryFromBytes, REMOVE_INSTRUCTION_SIGN,
                ADD_INSTRUCTION_SIGN, COPY_INSTRUCTION_SIGN]
            | cons L r =>
              by_cases h3 : (r.take L).length = L
              · refine Or.inl ⟨(.copy (r.take L), r.drop L), ?_⟩
                simp [Instruction.tryFromBytes, REMOVE_INSTRUCTION_SIGN,
                  ADD_INSTRUCTION_SIGN, COPY_INSTRUCTION_SIGN, h3]
              · refine Or.inr (Or.inr (Or.inr (Or.inr ?_)))
                have hlt : r.length < L := by
                  simp [List.length_take] at h3
                  omega
                simp [Instruction.tryFromBytes, REMOVE_INSTRUCTION_SIGN,
                  ADD_INSTRUCTION_SIGN, COPY_INSTRUCTION_SIGN, List.length_take, hlt]
          · refine Or.inr (Or.inr (Or.inl ?_))
            simp [Instruction.tryFromBytes, h1, h2, h4]
  refine ⟨h, ?_⟩
  rcases h with ⟨v, hv⟩ | hv | hv | hv | hv <;> simp [hv]

/-- C2: for every instruction within capacity and every byte suffix, decoding
`to_bytes(i) ++ s` returns Ok(i) and consumes exactly the bytes of
`to_bytes(i)`, leaving `s` unconsumed. -/
theorem c2_codec_round_trip (i : Instruction) (s : List Nat) (h : i.wf) :
    Instruction.tryFromBytes (i.toBytes ++ s) = .ok (i, s) := by
  cases i with
  | remove n =>
    simp [Instruction.toBytes, Instruction.tryFromBytes]
  | add c =>
    simp only [Instruction.wf, MAX_INSTRUCTION_LENGTH] at h
    have hc : c.length % 256 = c.length := Nat.mod_eq_of_lt (by omega)
    simp only [Instruction.toBytes, hc, List.cons_append]
    simp [Instruction.tryFromBytes, REMOVE_INSTRUCTION_SIGN, ADD_INSTRUCTION_SIGN,
      List.take_left, List.drop_left]
  | copy c =>
    simp only [Instruction.wf, MAX_INSTRUCTION_LENGTH] at h
    have hc : c.length % 256 = c.length := Nat.mod_eq_of_lt (by omega)
    simp only [Instruction.toBytes, hc, List.cons_append]
    simp [Instruction.tryFromBytes, REMOVE_INSTRUCTION_SIGN, ADD_INSTRUCTION_SIGN,
      COPY_INSTRUCTION_SIGN, List.take_left, List.drop_left]

/-- C2 witness: round trip at a concrete instruction and suffix. -/
theorem c2_codec_round_trip_witness :
    Instruction.tryFromBytes [43, 2, 1, 2, 9] = .ok (.add [1, 2], [9]) := by
  have h := c2_codec_round_trip (.add [1, 2]) [9] (by simp [Instruction.wf, MAX_INSTRUCTION_LENGTH])
  simpa using h

/-- C4: `push` fails with ContentOverflow iff the instruction is already full
(`len() == MAX`), leaving it unchanged; on success `len()` increases by
exactly 1, Remove ignores the pushed item, and Add/Copy append it. -/
theorem c4_push_spec (i : Instruction) (b : Nat) :
    ((i.push b).2 = .error .contentOverflow ↔ i.isFull = true)
    ∧ (i.isFull = true → (i.push b).1 = i)
    ∧ (i.isFull = false → (i.push b).2 = .ok () ∧ (i.push b).1.len = i.len + 1)
    ∧ (∀ n b', Instruction.push (.remove n) b = Instruction.push (.remove n) b')
    ∧ (∀ c, Instruction.isFull (.add c) = false →
        (Instruction.push (.add c) b).1 = .add (c ++ [b]))
    ∧ (∀ c, Instruction.isFull (.copy c) = false →
        (Instruction.push (.copy c) b).1 = .copy (c ++ [b])) := by
  refine ⟨?_, ?_, ?_, ?_, ?_, ?_⟩
  · by_cases hf : i.isFull
    · simp [Instruction.push, hf]
    · constructor
      · intro hcontra
        cases i <;> simp [Instruction.push, hf] at hcontra
      · intro hcontra
        exact absurd hcontra hf
  · intro hf
    simp [Instruction.push, hf]
  · intro hf
    cases i with
    | remove n =>
      simp [Instruction.push, hf, Instruction.len]
    | add c =>
      simp only [Instruction.isFull, Instruction.len, MAX_INSTRUCTION_LENGTH,
        decide_eq_false_iff_not] at hf
      simp [Instruction.push, Instruction.isFull, Instruction.len,
        MAX_INSTRUCTION_LENGTH, hf]
      omega
    | copy c =>
      simp only [Instruction.isFull, Instruction.len, MAX_INSTRUCTION_LENGTH,
        decide_eq_false_iff_not] at hf
      simp [Instruction.push, Instruction.isFull, Instruction.len,
        MAX_INSTRUCTION_LENGTH, hf]
      omega
  · intro n b'
    simp [Instruction.push]
  · intro c hf
    simp [Instruction.push, hf]
  · intro c hf
    simp [Instruction.push, hf]

/-- C4 witness: push at concrete instructions. -/
theorem c4_push_spec_witness :
    (Instruction.push (.add [1]) 2).1 = .add [1, 2]
    ∧ (Instruction.push (.remove 255) 0).2 = .error .contentOverflow :=
  ⟨(c4_push_spec (.add [1]) 2).2.2.2.2.1 [1] (by decide),
   (c4_push_spec (.remove 255) 0).1.mpr (by decide)⟩

/-- Length of the big-endian encoding. -/
theorem length_toBeBytes (W : Nat) : ∀ n, (toBeBytes W n).length = W := by
  induction W with
  | zero => intro n; rfl
  | succ w ih => intro n; simp [toBeBytes, ih]

/-- Appending a low digit. -/
theorem fromBeBytes_append_digit (xs : List Nat) (x : Nat) :
    fromBeBytes (xs ++ [x]) = fromBeBytes xs * 256 + x := by
  simp [fromBeBytes, List.foldl_append]

/-- Big-endian round trip for values in range. -/
theorem fromBeBytes_toBeBytes (W : Nat) : ∀ n, n < 256 ^ W → fromBeBytes (toBeBytes W n) = n := by
  induction W with
  | zero =>
    intro n h
    simp [toBeBytes, fromBeBytes]
    omega
  | succ w ih =>
    intro n h
    have hp : (256 : Nat) ^ (w + 1) = 256 ^ w * 256 := pow_succ 256 w
    have hdiv : n / 256 < 256 ^ w := by omega
    rw [toBeBytes, fromBeBytes_append_digit, ih _ hdiv]
    omega

/-- C6: serializing a Remove produces exactly the sign byte `-` followed by
the length in `W` big-endian bytes and no content, so the encoding has
`byte_length() = W + 1` bytes; an Add/Copy encoding is its sign byte, the
length field, then exactly `length` content bytes. -/
theorem c6_wire_format (W n : Nat) (hn : n < 256 ^ W) :
    RemoveInstruction.toBytes W n = REMOVE_INSTRUCTION_SIGN :: toBeBytes W n
    ∧ (RemoveInstruction.toBytes W n).length = RemoveInstruction.byteLength W
    ∧ RemoveInstruction.byteLength W = W + 1
    ∧ (toBeBytes W n).length = W
    ∧ fromBeBytes (toBeBytes W n) = n
    ∧ (∀ c : List Nat, c.length ≤ 255 →
        Instruction.toBytes (.add c) = ADD_INSTRUCTION_SIGN :: c.length :: c
        ∧ Instruction.toBytes (.copy c) = COPY_INSTRUCTION_SIGN :: c.length :: c
        ∧ (Instruction.toBytes (.add c)).length = 2 + c.length) := by
  refine ⟨rfl, ?_, rfl, length_toBeBytes W n, fromBeBytes_toBeBytes W n hn, ?_⟩
  · simp [RemoveInstruction.toBytes, RemoveInstruction.byteLength, length_toBeBytes]
  · intro c hc
    have hmod : c.length % 256 = c.length := Nat.mod_eq_of_lt (by omega)
    refine ⟨?_, ?_, ?_⟩ <;> simp [Instruction.toBytes, hmod]
    omega

/-- C6 witness: the wire format at a concrete width, length and content. -/
theorem c6_wire_format_witness :
    RemoveInstruction.toBytes 2 300 = [45, 1, 44]
    ∧ (RemoveInstruction.toBytes 2 300).length = 3
    ∧ Instruction.toBytes (.add [7, 8]) = [43, 2, 7, 8] := by
  have h := c6_wire_format 2 300 (by decide)
  refine ⟨?_, ?_, ?_⟩
  · have h1 := h.1
    simpa using h1
  · have h2 := h.2.1
    simpa using h2
  · have h6 := (h.2.2.2.2.2 [7, 8] (by decide)).1
    simpa using h6

/-- C7 counterexample: with width `W = 2`, a present sign byte followed by
only one length byte decodes to `InvalidLength`, not `MissingLength`. -/
theorem c7_counterexample :
    RemoveInstruction.tryFromBytes 2 [45, 7] = .error .invalidLength
    ∧ RemoveInstruction.tryFromBytes 2 [45, 7] ≠ .error .missingLength := by
  decide

/-- C7 (amended): with the sign byte present, `MissingLength` is returned
exactly when no length byte at all is available; when at least one but fewer
than `W` length bytes remain, the error is `InvalidLength`. -/
theorem c7_missing_vs_invalid_length (W : Nat) (s : List Nat) :
    (s = [] → RemoveInstruction.tryFromBytes W (REMOVE_INSTRUCTION_SIGN :: s)
        = .error .missingLength)
    ∧ (s ≠ [] → s.length < W → RemoveInstruction.tryFromBytes W (REMOVE_INSTRUCTION_SIGN :: s)
        = .error .invalidLength) := by
  constructor
  · rintro rfl
    simp [RemoveInstruction.tryFromBytes]
  · intro hne hlt
    have htake : (s.take W).length = s.length := by
      simp [List.length_take]
      omega
    simp [RemoveInstruction.tryFromBytes, List.isEmpty_iff, hne, htake]
    omega

/-- C7 witness: the amended behavior at width 2. -/
theorem c7_missing_vs_invalid_length_witness :
    RemoveInstruction.tryFromBytes 2 [45] = .error .missingLength
    ∧ RemoveInstruction.tryFromBytes 2 [45, 9] = .error .invalidLength :=
  ⟨(c7_missing_vs_invalid_length 2 []).1 rfl,
   (c7_missing_vs_invalid_length 2 [9]).2 (by decide) (by decide)⟩

/-- C5: `Remove.fill` consumes source items one at a time exactly while the
source cursor and the LCS cursor both have a next item, the peeked items
differ, and the instruction is not full; it increments the length once per
consumed item and never advances the LCS or target cursors. -/
theorem c5_remove_fill (M n : Nat) (lcs source target : List Nat) :
    ∃ k, RemoveInstruction.fill M n lcs source target
        = .ok (n + k, lcs, source.drop k, target)
    ∧ (∀ i, i < k → ∃ l s, lcs.head? = some l ∧ source[i]? = some s ∧ s ≠ l ∧ n + i ≠ M)
    ∧ ¬(∃ l s, lcs.head? = some l ∧ source[k]? = some s ∧ s ≠ l ∧ n + k ≠ M) := by
  induction source generalizing n with
  | nil =>
    refine ⟨0, by simp [RemoveInstruction.fill], by simp, ?_⟩
    rintro ⟨l, s, -, hs, -, -⟩
    simp at hs
  | cons s rest ih =>
    rcases hl : lcs.head? with - | l
    · refine ⟨0, by simp [RemoveInstruction.fill, hl], by simp, ?_⟩
      rintro ⟨l, s', hl', -, -, -⟩
      simp [hl] at hl'
    · by_cases hstop : l = s ∨ n = M
      · refine ⟨0, ?_, by simp, ?_⟩
        · rcases hstop with h | h <;> simp [RemoveInstruction.fill, hl, h]
        · rintro ⟨l', s', hl', hs', hneq, hnm⟩
          obtain rfl : l = l' := Option.some.inj hl'
          simp at hs'
          rcases hstop with h | h <;> omega
      · have hne : l ≠ s := fun h => hstop (Or.inl h)
        have hnm : n ≠ M := fun h => hstop (Or.inr h)
        obtain ⟨k, hfill, hall, hnot⟩ := ih (n + 1)
        refine ⟨k + 1, ?_, ?_, ?_⟩
        · have hstep : RemoveInstruction.fill M n lcs (s :: rest) target
              = RemoveInstruction.fill M (n + 1) lcs rest target := by
            simp [RemoveInstruction.fill, hl, hne, hnm, RemoveInstruction.push]
          rw [hstep, hfill]
          have harith : n + 1 + k = n + (k + 1) := by omega
          rw [harith]
          rfl
        · intro i hi
          match i with
          | 0 => exact ⟨l, s, rfl, by simp, fun h => hne h.symm, by omega⟩
          | i + 1 =>
            obtain ⟨l', s', hl', hs', hneq, hnm'⟩ := hall i (by omega)
            exact ⟨l', s', hl ▸ hl', by simpa using hs', hneq, by omega⟩
        · rintro ⟨l', s', hl', hs', hneq, hnm'⟩
          exact hnot ⟨l', s', hl.trans hl', by simpa using hs', hneq, by omega⟩

/-- C8: during `Remove.fill` the `push` call can never return
ContentOverflow — the loop condition checks fullness before every push — so
`fill` is total and never reaches its error (panic) branch. -/
theorem c8_fill_no_overflow (M n : Nat) (lcs source target : List Nat) :
    ∃ r, RemoveInstruction.fill M n lcs source target = .ok r := by
  induction source generalizing n with
  | nil => exact ⟨_, rfl⟩
  | cons s rest ih =>
    rcases hl : lcs.head? with - | l
    · exact ⟨(n, lcs, s :: rest, target), by simp [RemoveInstruction.fill, hl]⟩
    · by_cases hstop : l = s ∨ n = M
      · rcases hstop with h | h
        · exact ⟨(n, lcs, s :: rest, target), by simp [RemoveInstruction.fill, hl, h]⟩
        · exact ⟨(n, lcs, s :: rest, target), by simp [RemoveInstruction.fill, hl, h]⟩
      · have hne : l ≠ s := fun h => hstop (Or.inl h)
        have hnm : n ≠ M := fun h => hstop (Or.inr h)
        obtain ⟨r, hr⟩ := ih (n + 1)
        refine ⟨r, ?_⟩
        have hstep : RemoveInstruction.fill M n lcs (s :: rest) target
            = RemoveInstruction.fill M (n + 1) lcs rest target := by
          simp [RemoveInstruction.fill, hl, hne, hnm, RemoveInstruction.push]
        rw [hstep, hr]

set_option maxRecDepth 100000

/-- C9: for Add/Copy, `len()` is the content length reduced modulo 256; a
directly constructed Add with 256 content bytes reports `len() = 0`, is
"empty", not "full", accepts a further push that grows the content, and
serializes a truncated wire length field — capacity is not enforced by the
type on directly constructed values. -/
theorem c9_len_truncation :
    (∀ c, Instruction.len (.add c) = c.length % 256)
    ∧ (∀ c, Instruction.len (.copy c) = c.length % 256)
    ∧ Instruction.len (.add (List.replicate 256 0)) = 0
    ∧ Instruction.isEmpty (.add (List.replicate 256 0)) = true
    ∧ Instruction.isFull (.add (List.replicate 256 0)) = false
    ∧ (Instruction.push (.add (List.replicate 256 0)) 7).1
        = .add (List.replicate 256 0 ++ [7])
    ∧ (Instruction.push (.add (List.replicate 256 0)) 7).2 = .ok ()
    ∧ Instruction.toBytes (.add (List.replicate 256 0))
        = ADD_INSTRUCTION_SIGN :: 0 :: List.replicate 256 0 := by
  refine ⟨fun c => rfl, fun c => rfl, ?_, ?_, ?_, ?_, ?_, ?_⟩ <;> rfl

/-!
Helper lemmas for the round-trip theorem (C1).
-/

/-- The modelled LCS is a subsequence of the first input. -/
theorem lcsAux_sublist_left (fuel : Nat) : ∀ (xs ys : List Nat), (lcsAux fuel xs ys).Sublist xs := by
  induction fuel with
  | zero => intro xs ys; simp [lcsAux]
  | succ f ih =>
    intro xs ys
    match xs, ys with
    | [], _ => simp [lcsAux]
    | x :: xs', [] => simp [lcsAux]
    | x :: xs', y :: ys' =>
      by_cases hxy : x = y
      · subst hxy
        simp only [lcsAux, if_pos rfl]
        exact List.cons_sublist_cons.mpr (ih xs' ys')
      · simp only [lcsAux, if_neg hxy]
        by_cases hlen : (lcsAux f xs' (y :: ys')).length ≤ (lcsAux f (x :: xs') ys').length
        · rw [if_pos hlen]
          exact ih (x :: xs') ys'
        · rw [if_neg hlen]
          exact (ih xs' (y :: ys')).cons x

/-- The modelled LCS is a subsequence of the second input. -/
theorem lcsAux_sublist_right (fuel : Nat) : ∀ (xs ys : List Nat), (lcsAux fuel xs ys).Sublist ys := by
  induction fuel with
  | zero => intro xs ys; simp [lcsAux]
  | succ f ih =>
    intro xs ys
    match xs, ys with
    | [], _ => simp [lcsAux]
    | x :: xs', [] => simp [lcsAux]
    | x :: xs', y :: ys' =>
      by_cases hxy : x = y
      · subst hxy
        simp only [lcsAux, if_pos rfl]
        exact List.cons_sublist_cons.mpr (ih xs' ys')
      · simp only [lcsAux, if_neg hxy]
        by_cases hlen : (lcsAux f xs' (y :: ys')).length ≤ (lcsAux f (x :: xs') ys').length
        · rw [if_pos hlen]
          exact (ih (x :: xs') ys').cons y
        · rw [if_neg hlen]
          exact ih xs' (y :: ys')

/-- `lcs` is a common subsequence of the source. -/
theorem lcs_sublist_left (s t : List Nat) : (lcs s t).Sublist s :=
  lcsAux_sublist_left _ s t

/-- `lcs` is a common subsequence of the target. -/
theorem lcs_sublist_right (s t : List Nat) : (lcs s t).Sublist t :=
  lcsAux_sublist_right _ s t

/-- The copy run is the corresponding prefix of the LCS cursor. -/
theorem copyTaken_take_lcs : ∀ (ls ss ts : List Nat),
    ls.take (copyTaken ls ss ts).length = copyTaken ls ss ts := by
  intro ls
  induction ls with
  | nil => intro ss ts; simp [copyTaken]
  | cons l ls' ih =>
    intro ss ts
    match ss, ts with
    | [], _ => simp [copyTaken]
    | s :: ss', [] => simp [copyTaken]
    | s :: ss', t :: ts' =>
      by_cases h : l = s ∧ s = t
      · obtain ⟨rfl, rfl⟩ := h
        simp [copyTaken, List.take_succ_cons, ih ss' ts']
      · simp [copyTaken, h]

/-- The copy run is the corresponding prefix of the source cursor. -/
theorem copyTaken_take_src : ∀ (ls ss ts : List Nat),
    ss.take (copyTaken ls ss ts).length = copyTaken ls ss ts := by
  intro ls
  induction ls with
  | nil => intro ss ts; simp [copyTaken]
  | cons l ls' ih =>
    intro ss ts
    match ss, ts with
    | [], _ => simp [copyTaken]
    | s :: ss', [] => simp [copyTaken]
    | s :: ss', t :: ts' =>
      by_cases h : l = s ∧ s = t
      · obtain ⟨rfl, rfl⟩ := h
        simp [copyTaken, List.take_succ_cons, ih ss' ts']
      · simp [copyTaken, h]

/-- The copy run is the corresponding prefix of the target cursor. -/
theorem copyTaken_take_tgt : ∀ (ls ss ts : List Nat),
    ts.take (copyTaken ls ss ts).length = copyTaken ls ss ts := by
  intro ls
  induction ls with
  | nil => intro ss ts; simp [copyTaken]
  | cons l ls' ih =>
    intro ss ts
    match ss, ts with
    | [], _ => simp [copyTaken]
    | s :: ss', [] => simp [copyTaken]
    | s :: ss', t :: ts' =>
      by_cases h : l = s ∧ s = t
      · obtain ⟨rfl, rfl⟩ := h
        simp [copyTaken, List.take_succ_cons, ih ss' ts']
      · simp [copyTaken, h]

/-- A cons sublist of an append whose first part avoids the head passes to
the second part. -/
theorem cons_sublist_of_avoid {l : Nat} {ls b : List Nat} :
    ∀ (a : List Nat), (∀ x ∈ a, x ≠ l) → (l :: ls).Sublist (a ++ b) →
    (l :: ls).Sublist b := by
  intro a
  induction a with
  | nil => intro _ hs; exact hs
  | cons x a' ih =>
    intro h hs
    cases hs with
    | cons _ h' => exact ih (fun z hz => h z (List.mem_cons_of_mem x hz)) h'
    | cons₂ _ h' => exact absurd rfl (h _ (List.mem_cons_self _ _))

/-- Dropping the Remove/Add run preserves the LCS-subsequence invariant. -/
theorem sublist_dropWhile_mismatch (lcsL src : List Nat)
    (hsub : lcsL.Sublist src) :
    lcsL.Sublist (src.dropWhile (mismatchesHead lcsL)) := by
  match lcsL with
  | [] => exact List.nil_sublist _
  | l :: ls =>
    apply cons_sublist_of_avoid (src.takeWhile (mismatchesHead (l :: ls)))
    · intro x hx
      have hp := List.mem_takeWhile_imp hx
      simp [mismatchesHead] at hp
      exact fun he => hp he.symm
    · rw [List.takeWhile_append_dropWhile]
      exact hsub

/-- Composition of `Except.map`. -/
theorem except_map_map (f g : List Nat → List Nat)
    (x : Except InstructionError (List Nat)) :
    Except.map f (Except.map g x) = Except.map (fun out => f (g out)) x := by
  cases x <;> rfl

/-- Applying a split Remove run skips exactly its total length. -/
theorem applyStream_removeChunksAux :
    ∀ (fuel n : Nat) (src : List Nat) (rest : List Instruction),
    n ≤ fuel → n ≤ src.length →
    applyStream src ((splitCountsAux fuel n).map .remove ++ rest)
      = applyStream (src.drop n) rest := by
  intro fuel
  induction fuel with
  | zero =>
    intro n src rest h1 h2
    have hn : n = 0 := by omega
    subst hn
    simp [splitCountsAux]
  | succ f ih =>
    intro n src rest h1 h2
    by_cases h0 : n = 0
    · subst h0
      simp [splitCountsAux]
    · rw [splitCountsAux, if_neg h0]
      simp only [List.map_cons, List.cons_append]
      simp only [applyStream]
      rw [if_pos (show min n 255 ≤ src.length by omega)]
      rw [ih (n - 255) (src.drop (min n 255)) rest ?hfuel ?hlen]
      case hfuel => omega
      case hlen =>
        rw [List.length_drop]
        omega
      rw [List.drop_drop]
      have harg : min n 255 + (n - 255) = n := by omega
      rw [harg]

/-- Applying a split Add run emits exactly its total content. -/
theorem applyStream_addChunksAux :
    ∀ (fuel : Nat) (c src : List Nat) (rest : List Instruction),
    c.length ≤ fuel →
    applyStream src ((splitChunksAux fuel c).map .add ++ rest)
      = (applyStream src rest).map (fun out => c ++ out) := by
  intro fuel
  induction fuel with
  | zero =>
    intro c src rest h
    have hc : c = [] := List.eq_nil_of_length_eq_zero (by omega)
    subst hc
    simp [splitChunksAux]
    cases applyStream src rest <;> simp [Except.map]
  | succ f ih =>
    intro c src rest h
    by_cases hc : c = []
    · subst hc
      simp [splitChunksAux]
      cases applyStream src rest <;> simp [Except.map]
    · rw [splitChunksAux, if_neg hc]
      simp only [List.map_cons, List.cons_append]
      simp only [applyStream]
      rw [ih (c.drop 255) src rest ?hfuel]
      case hfuel =>
        rw [List.length_drop]
        omega
      rw [except_map_map]
      have hfe : (fun out : List Nat => c.take 255 ++ (c.drop 255 ++ out))
          = fun out => c ++ out := by
        funext out
        rw [← List.append_assoc, List.take_append_drop]
      rw [hfe]

/-- Applying a split Copy run emits its content and skips its length. -/
theorem applyStream_copyChunksAux :
    ∀ (fuel : Nat) (c src : List Nat) (rest : List Instruction),
    c.length ≤ fuel → c.length ≤ src.length →
    applyStream src ((splitChunksAux fuel c).map .copy ++ rest)
      = (applyStream (src.drop c.length) rest).map (fun out => c ++ out) := by
  intro fuel
  induction fuel with
  | zero =>
    intro c src rest h1 h2
    have hc : c = [] := List.eq_nil_of_length_eq_zero (by omega)
    subst hc
    simp [splitChunksAux]
    cases applyStream src rest <;> simp [Except.map]
  | succ f ih =>
    intro c src rest h1 h2
    by_cases hc : c = []
    · subst hc
      simp [splitChunksAux]
      cases applyStream src rest <;> simp [Except.map]
    · rw [splitChunksAux, if_neg hc]
      simp only [List.map_cons, List.cons_append]
      simp only [applyStream]
      rw [if_pos (show (c.take 255).length ≤ src.length by
        simp [List.length_take]
        omega)]
      rw [ih (c.drop 255) (src.drop (c.take 255).length) rest ?hfuel ?hlen]
      case hfuel =>
        rw [List.length_drop]
        omega
      case hlen =>
        simp [List.length_drop, List.length_take]
        omega
      rw [List.drop_drop]
      have hsum : (c.take 255).length + (c.drop 255).length = c.length := by
        simp [List.length_take, List.length_drop]
        omega
      rw [hsum]
      rw [except_map_map]
      have hfe : (fun out : List Nat => c.take 255 ++ (c.drop 255 ++ out))
          = fun out => c ++ out := by
        funext out
        rw [← List.append_assoc, List.take_append_drop]
      rw [hfe]

/-- Wrapper: a Remove run against `applyStream`. -/
theorem applyStream_removeChunks (n : Nat) (src : List Nat) (rest : List Instruction)
    (h : n ≤ src.length) :
    applyStream src (removeChunks n ++ rest) = applyStream (src.drop n) rest := by
  have haux := applyStream_removeChunksAux n n src rest le_rfl h
  simpa [removeChunks, splitCounts] using haux

/-- Wrapper: an Add run against `applyStream`. -/
theorem applyStream_addChunks (c : List Nat) (src : List Nat) (rest : List Instruction) :
    applyStream src (addChunks c ++ rest)
      = (applyStream src rest).map (fun out => c ++ out) := by
  have haux := applyStream_addChunksAux c.length c src rest le_rfl
  simpa [addChunks, splitChunks] using haux

/-- Wrapper: a Copy run against `applyStream`. -/
theorem applyStream_copyChunks (c : List Nat) (src : List Nat) (rest : List Instruction)
    (h : c.length ≤ src.length) :
    applyStream src (copyChunks c ++ rest)
      = (applyStream (src.drop c.length) rest).map (fun out => c ++ out) := by
  have haux := applyStream_copyChunksAux c.length c src rest le_rfl h
  simpa [copyChunks, splitChunks] using haux

/-- Sharing a prefix preserves sublists after dropping it. -/
theorem sublist_drop_common (k : Nat) (l s : List Nat)
    (hsub : l.Sublist s) (hk : l.take k = s.take k) :
    (l.drop k).Sublist (s.drop k) := by
  rw [← List.take_append_drop k l, ← List.take_append_drop k s, hk] at hsub
  exact (List.append_sublist_append_left _).mp hsub

/-- One Diff Engine iteration always consumes at least one item unless all
three cursors are exhausted. -/
theorem diff_progress (lcsL src tgt : List Nat)
    (hs : lcsL.Sublist src) (ht : lcsL.Sublist tgt)
    (hne : ¬(lcsL = [] ∧ src = [] ∧ tgt = [])) :
    1 ≤ (src.takeWhile (mismatchesHead lcsL)).length
      + (tgt.takeWhile (mismatchesHead lcsL)).length
      + (copyTaken lcsL (src.dropWhile (mismatchesHead lcsL))
          (tgt.dropWhile (mismatchesHead lcsL))).length := by
  cases lcsL with
  | nil =>
    cases src with
    | cons s ss =>
      rw [List.takeWhile_cons_of_pos (by simp [mismatchesHead])]
      simp only [List.length_cons]
      omega
    | nil =>
      cases tgt with
      | nil => exact absurd ⟨rfl, rfl, rfl⟩ hne
      | cons t ts =>
        rw [List.takeWhile_cons_of_pos (by simp [mismatchesHead])]
        simp only [List.length_cons]
        omega
  | cons l ls =>
    cases src with
    | nil => exact absurd (List.sublist_nil.mp hs) (by simp)
    | cons s ss =>
      cases tgt with
      | nil => exact absurd (List.sublist_nil.mp ht) (by simp)
      | cons t ts =>
        by_cases hms : mismatchesHead (l :: ls) s = true
        · rw [List.takeWhile_cons_of_pos hms]
          simp only [List.length_cons]
          omega
        · have hls : l = s := by
            simp [mismatchesHead] at hms
            exact hms
          rw [List.dropWhile_cons_of_neg hms]
          by_cases hmt : mismatchesHead (l :: ls) t = true
          · rw [List.takeWhile_cons_of_pos hmt]
            simp only [List.length_cons]
            omega
          · have hlt : l = t := by
              simp [mismatchesHead] at hmt
              exact hmt
            rw [List.dropWhile_cons_of_neg hmt]
            subst hls
            subst hlt
            simp only [copyTaken, and_self, if_pos, List.length_cons]
            omega

/-- The Diff Engine loop round-trips: applying the emitted stream to the
remaining source reproduces the remaining target, given the LCS invariant
and sufficient fuel. -/
theorem diffLoop_round_trip (fuel : Nat) : ∀ (lcsL src tgt : List Nat),
    lcsL.Sublist src → lcsL.Sublist tgt → src.length + tgt.length < fuel →
    applyStream src (diffLoop fuel lcsL src tgt) = .ok tgt := by
  induction fuel with
  | zero =>
    intro lcsL src tgt _ _ hf
    omega
  | succ f ih =>
    intro lcsL src tgt hs ht hf
    by_cases hend : lcsL = [] ∧ src = [] ∧ tgt = []
    · obtain ⟨h1, h2, h3⟩ := hend
      subst h1
      subst h2
      subst h3
      simp [diffLoop, applyStream]
    · rw [diffLoop, if_neg hend]
      dsimp only
      set r := src.takeWhile (mismatchesHead lcsL) with hrdef
      set src1 := src.dropWhile (mismatchesHead lcsL) with hsrc1
      set a := tgt.takeWhile (mismatchesHead lcsL) with hadef
      set tgt1 := tgt.dropWhile (mismatchesHead lcsL) with htgt1
      set c := copyTaken lcsL src1 tgt1 with hcdef
      have hsplit_s : r ++ src1 = src := by
        rw [hrdef, hsrc1]
        exact List.takeWhile_append_dropWhile _ _
      have hsplit_t : a ++ tgt1 = tgt := by
        rw [hadef, htgt1]
        exact List.takeWhile_append_dropWhile _ _
      have hsub_s1 : lcsL.Sublist src1 := by
        rw [hsrc1]
        exact sublist_dropWhile_mismatch lcsL src hs
      have hsub_t1 : lcsL.Sublist tgt1 := by
        rw [htgt1]
        exact sublist_dropWhile_mismatch lcsL tgt ht
      have hc_lcs : lcsL.take c.length = c := by
        rw [hcdef]
        exact copyTaken_take_lcs lcsL src1 tgt1
      have hc_src : src1.take c.length = c := by
        rw [hcdef]
        exact copyTaken_take_src lcsL src1 tgt1
      have hc_tgt : tgt1.take c.length = c := by
        rw [hcdef]
        exact copyTaken_take_tgt lcsL src1 tgt1
      have hk_src : c.length ≤ src1.length := by
        have hlen := congrArg List.length hc_src
        simp [List.length_take] at hlen
        omega
      have hk_tgt : c.length ≤ tgt1.length := by
        have hlen := congrArg List.length hc_tgt
        simp [List.length_take] at hlen
        omega
      have hdec_s : c ++ src1.drop c.length = src1 := by
        have h := List.take_append_drop c.length src1
        rw [hc_src] at h
        exact h
      have hdec_t : c ++ tgt1.drop c.length = tgt1 := by
        have h := List.take_append_drop c.length tgt1
        rw [hc_tgt] at h
        exact h
      have hsub_s2 : (lcsL.drop c.length).Sublist (src1.drop c.length) :=
        sublist_drop_common c.length lcsL src1 hsub_s1 (hc_lcs.trans hc_src.symm)
      have hsub_t2 : (lcsL.drop c.length).Sublist (tgt1.drop c.length) :=
        sublist_drop_common c.length lcsL tgt1 hsub_t1 (hc_lcs.trans hc_tgt.symm)
      have hprog : 1 ≤ r.length + a.length + c.length := by
        rw [hrdef, hadef, hcdef, hsrc1, htgt1]
        exact diff_progress lcsL src tgt hs ht hend
      have hlen_s : src.length = r.length + src1.length := by
        rw [← hsplit_s, List.length_append]
      have hlen_t : tgt.length = a.length + tgt1.length := by
        rw [← hsplit_t, List.length_append]
      have hlen_s1 : c.length + (src1.drop c.length).length = src1.length := by
        have hlen := congrArg List.length hdec_s
        rw [List.length_append] at hlen
        exact hlen
      have hlen_t1 : c.length + (tgt1.drop c.length).length = tgt1.length := by
        have hlen := congrArg List.length hdec_t
        rw [List.length_append] at hlen
        exact hlen
      simp only [List.append_assoc]
      rw [applyStream_removeChunks r.length src _ (by omega)]
      have hdrop_r : src.drop r.length = src1 := by
        rw [← hsplit_s, List.drop_left]
      rw [hdrop_r]
      rw [applyStream_addChunks]
      rw [applyStream_copyChunks c src1 _ (by omega)]
      rw [ih (lcsL.drop c.length) (src1.drop c.length) (tgt1.drop c.length)
        hsub_s2 hsub_t2 (by omega)]
      rw [except_map_map]
      simp only [Except.map]
      rw [show a ++ (c ++ tgt1.drop c.length) = tgt by rw [hdec_t, hsplit_t]]

/-- C1: for every pair of byte sequences S and T, applying the instruction
stream produced by `diff(S, T)` to S reproduces T exactly:
`apply(S, diff(S, T)) = T`. -/
theorem c1_round_trip (source target : List Nat) :
    applyStream source (diff source target) = .ok target := by
  rw [diff]
  exact diffLoop_round_trip (source.length + target.length + 1) (lcs source target)
    source target (lcs_sublist_left source target) (lcs_sublist_right source target)
    (by omega)

end Deltas
